import Mathlib

/-!
Verification of the class-name extraction core of
packages/tailwindcss-language-service/src/util/find.ts.

Strings are modelled as lists of characters (`Str`).  The external
line-column library used by indexToPosition is modelled by `splitLines`,
`fromIndexGo` and `lineColFromIndex`, which reproduce its observable
semantics: 1-based line/column of a flat index, `none` when the index is
out of range of the string.
-/

namespace TwFind

abbrev Str := List Char

structure Position where
  line : Nat
  character : Nat
deriving DecidableEq, Repr

/-- A line/character range.  The source field name is `end`; since `end` is a
Lean keyword the field is called `stop` here. -/
structure Range where
  start : Position
  stop : Position
deriving DecidableEq, Repr

/-- The JS whitespace class matched by the regex escape used in
`classList.split` and in the helper-function regex: characters matched by
a JS regex whitespace escape. -/
def jsWhitespace : List Char :=
  [' ', '\t', '\n', '\x0b', '\x0c', '\r',
   ' ', ' ',
   ' ', ' ', ' ', ' ', ' ', ' ',
   ' ', ' ', ' ', ' ', ' ',
   ' ', ' ', ' ', ' ', '　', '﻿']

def isJsWs (c : Char) : Bool := jsWhitespace.contains c

/-- find.ts lines 73-90: the explicit separator set of the variant-aware
tokenizer. -/
def SEPARATOR_CHARS : List Char :=
  [' ', '\n', '\t', '\r', '\x0c', '\x0b',
   ' ', ' ', ' ', ' ', ' ', ' ',
   ' ', ' ', '　', '﻿']

def isSeparator (c : Char) : Bool := SEPARATOR_CHARS.contains c

/-- Model of the line-column library: `str.split('\n')`. -/
def splitLines : Str → List Str
  | [] => [[]]
  | c :: rest =>
    if c = '\n' then [] :: splitLines rest
    else
      match splitLines rest with
      | [] => [[c]]
      | l :: ls => (c :: l) :: ls

/-- Model of the line-column library's search for the line containing a flat
index: walks the lines, returning the 0-based line and the 0-based offset
within that line. -/
def fromIndexGo : List Str → Nat → Nat × Nat
  | [], i => (0, i)
  | l :: rest, i =>
    if i ≤ l.length then (0, i)
    else
      let p := fromIndexGo rest (i - (l.length + 1))
      (p.1 + 1, p.2)

/-- Model of `lineColumn(s).fromIndex(i)`: `none` when `i` is out of range of
`s`, otherwise the 1-based line and column of index `i`. -/
def lineColFromIndex (s : Str) (i : Nat) : Option (Nat × Nat) :=
  if i < s.length then
    let p := fromIndexGo (splitLines s) i
    some (p.1 + 1, p.2 + 1)
  else none

/-- find.ts lines 519-522: `indexToPosition(str, index)` appends a newline,
asks the line-column library for the 1-based line/column of `index`, falls
back to line 1 column 1 when the library returns null, and shifts to
0-based coordinates. -/
def indexToPosition (s : Str) (index : Int) : Position :=
  match (if index < 0 then none else lineColFromIndex (s ++ ['\n']) index.toNat) with
  | some p => { line := p.1 - 1, character := p.2 - 1 }
  | none => { line := 1 - 1, character := 1 - 1 }

/-- Offset of the start of a (0-based) line, over the split-lines view. -/
def lineStartOffset : List Str → Nat → Nat
  | [], _ => 0
  | _ :: _, 0 => 0
  | l :: rest, n + 1 => l.length + 1 + lineStartOffset rest n

/-- Claim-language helper: the flat offset a `Position` denotes inside `s`,
computed over the same split-lines view `indexToPosition` uses. -/
def positionToOffset (s : Str) (p : Position) : Nat :=
  lineStartOffset (splitLines (s ++ ['\n'])) p.line + p.character

/-- Claim-language helper: the substring of `s` delimited by a range,
obtained by converting both range endpoints back to flat offsets. -/
def sliceRange (s : Str) (r : Range) : Str :=
  (s.drop (positionToOffset s r.start)).take
    (positionToOffset s r.stop - positionToOffset s r.start)

/-- Model of JS `String.prototype.substring(a, b)`: clamps both arguments to
the string length and swaps them when out of order. -/
def jsSubstring (s : Str) (a b : Nat) : Str :=
  let a' := min a s.length
  let b' := min b s.length
  (s.drop (min a' b')).take (max a' b' - min a' b')

/-- One located class-list span (the `DocumentClassList` fields the tokenizers
read; the type itself lives in util/state.ts, outside src/). -/
structure DocumentClassList where
  classList : Str
  range : Range
  important : Bool
deriving DecidableEq, Repr

/-- One emitted class-name token.  `variants` is an optional field in the
source type; the flat tokenizer leaves it absent (`none`), the variant-aware
tokenizer sets it. -/
structure DocumentClassName where
  className : Str
  classList : DocumentClassList
  variants : Option (List Str)
  relativeRange : Range
  range : Range
deriving DecidableEq, Repr

/-! ## Flat tokenizer: getClassNamesInClassList (find.ts lines 34-71) -/

/-- Model of `classList.split(/(\s+)/)`: alternating word / separator-run
parts, where a separator run is a maximal run of JS whitespace and the
word parts at either end may be empty. -/
def splitWs : Str → List Str
  | [] => [[]]
  | c :: rest =>
    if isJsWs c then
      match splitWs rest with
      | [] :: sep :: tail => [] :: (c :: sep) :: tail
      | parts => [] :: [c] :: parts
    else
      match splitWs rest with
      | [] => [[c]]
      | w :: parts => (c :: w) :: parts

/-- The token built for part `p` of the class list at flat offset `index`
(find.ts lines 43-66). -/
def flatToken (cl : Str) (r : Range) (imp : Bool) (p : Str) (index : Nat) :
    DocumentClassName :=
  let s := indexToPosition cl (index : Int)
  let e := indexToPosition cl ((index + p.length : Nat) : Int)
  { className := p
    classList := { classList := cl, range := r, important := imp }
    variants := none
    relativeRange := { start := s, stop := e }
    range :=
      { start :=
          { line := r.start.line + s.line
            character := (if e.line = 0 then r.start.character else 0) + s.character }
        stop :=
          { line := r.start.line + e.line
            character := (if e.line = 0 then r.start.character else 0) + e.character } } }

/-- The loop of getClassNamesInClassList: iterate over the split parts with
the part counter `i` and the running flat offset `index`; even-indexed parts
that are not blocklisted are emitted. -/
def flatGo (cl : Str) (r : Range) (imp : Bool) (bl : List Str) :
    List Str → Nat → Nat → List DocumentClassName
  | [], _, _ => []
  | p :: parts, i, index =>
    (if i % 2 == 0 && !(bl.contains p) then [flatToken cl r imp p index] else []) ++
      flatGo cl r imp bl parts (i + 1) (index + p.length)

/-- find.ts lines 34-71. -/
def getClassNamesInClassList (dcl : DocumentClassList) (bl : List Str) :
    List DocumentClassName :=
  flatGo dcl.classList dcl.range dcl.important bl (splitWs dcl.classList) 0 0

/-! ## Variant-aware tokenizer: getClassNamesAndVariantsInClassList
(find.ts lines 92-181) -/

/-- The mutable scan state of getClassNamesAndVariantsInClassList. -/
structure VState where
  searchingForStart : Bool
  globalStack : List Str
  globalStackLengths : List Nat
  localStack : List Str
  classInfo : List DocumentClassName
  wordIndex : Nat
deriving DecidableEq, Repr

/-- find.ts lines 106-109: the reduce that sums each pending local-stack
entry's length plus one (the code adds the 1 for every entry, the trailing
colon included). -/
def localStackOffset (ls : List Str) : Nat :=
  ls.foldl (fun acc item => acc + item.length + 1) 0

/-- The token the closure pushClassInfo builds at emission index `idx`
(find.ts lines 103-137). -/
def mkVariantToken (cl : Str) (r : Range) (imp : Bool) (st : VState) (idx : Nat) :
    DocumentClassName :=
  let className := jsSubstring cl st.wordIndex idx
  let s := indexToPosition cl
    ((idx : Int) - (className.length : Int) - (localStackOffset st.localStack : Int))
  let e := indexToPosition cl (idx : Int)
  { className := className
    classList := { classList := cl, range := r, important := imp }
    variants := some (st.globalStack ++ st.localStack)
    relativeRange := { start := s, stop := e }
    range :=
      { start :=
          { line := r.start.line + s.line
            character := (if e.line = 0 then r.start.character else 0) + s.character }
        stop :=
          { line := r.start.line + e.line
            character := (if e.line = 0 then r.start.character else 0) + e.character } } }

/-- pushClassInfo: append the token unless its class name is blocklisted. -/
def pushClassInfo (cl : Str) (r : Range) (imp : Bool) (bl : List Str)
    (st : VState) (idx : Nat) : List DocumentClassName :=
  let t := mkVariantToken cl r imp st idx
  if bl.contains t.className then st.classInfo else st.classInfo ++ [t]

/-- One iteration of the character loop (find.ts lines 140-174). -/
def vStep (cl : Str) (r : Range) (imp : Bool) (bl : List Str)
    (st : VState) (idx : Nat) (c : Char) : VState :=
  if !st.searchingForStart && isSeparator c then
    { st with classInfo := pushClassInfo cl r imp bl st idx
              localStack := []
              searchingForStart := true }
  else if !st.searchingForStart && c == ':' then
    { st with localStack := st.localStack ++ [jsSubstring cl st.wordIndex idx]
              searchingForStart := true }
  else if c == '(' then
    { st with globalStack := st.globalStack ++ st.localStack
              globalStackLengths := st.globalStackLengths ++ [st.localStack.length]
              localStack := []
              searchingForStart := true }
  else if c == ')' then
    let ci := if !st.searchingForStart then pushClassInfo cl r imp bl st idx
              else st.classInfo
    let lastLength := st.globalStackLengths.getLast?.getD 0
    let gs := if lastLength ≠ 0
              then st.globalStack.take (st.globalStack.length - lastLength)
              else st.globalStack
    { st with classInfo := ci
              localStack := []
              globalStackLengths := st.globalStackLengths.dropLast
              globalStack := gs
              searchingForStart := true }
  else if st.searchingForStart && !(isSeparator c) then
    { st with wordIndex := idx, searchingForStart := false }
  else st

/-- The character loop itself, scanning the suffix `rest` that starts at flat
index `idx` of the class list. -/
def vScan (cl : Str) (r : Range) (imp : Bool) (bl : List Str) :
    Nat → Str → VState → VState
  | _, [], st => st
  | idx, c :: rest, st => vScan cl r imp bl (idx + 1) rest (vStep cl r imp bl st idx c)

def initV : VState :=
  { searchingForStart := true
    globalStack := []
    globalStackLengths := []
    localStack := []
    classInfo := []
    wordIndex := 0 }

/-- find.ts lines 176-178: after the loop, a still-open word is emitted at the
end of the class list. -/
def vFinish (cl : Str) (r : Range) (imp : Bool) (bl : List Str) (st : VState) :
    List DocumentClassName :=
  if !st.searchingForStart then pushClassInfo cl r imp bl st cl.length
  else st.classInfo

/-- find.ts lines 92-181. -/
def getClassNamesAndVariantsInClassList (dcl : DocumentClassList) (bl : List Str) :
    List DocumentClassName :=
  vFinish dcl.classList dcl.range dcl.important bl
    (vScan dcl.classList dcl.range dcl.important bl 0 dcl.classList initV)

/-! ## Helper-function references: findHelperFunctionsInRange
(find.ts lines 447-517) -/

inductive Helper where
  | theme : Helper
  | config : Helper
deriving DecidableEq, Repr

def quoteChars : List Char := ['"', Char.ofNat 39]

def isQuote (c : Char) : Bool := quoteChars.contains c

/-- find.ts lines 447-461: index of the first comma not inside matching
quote characters, if any. -/
def getFirstCommaIndexGo : Str → Option Char → Nat → Option Nat
  | [], _, _ => none
  | c :: rest, quoteChar, i =>
    if c == ',' && quoteChar.isNone then some i
    else if quoteChar.isNone && isQuote c then getFirstCommaIndexGo rest (some c) (i + 1)
    else if quoteChar == some c then getFirstCommaIndexGo rest none (i + 1)
    else getFirstCommaIndexGo rest quoteChar (i + 1)

def getFirstCommaIndex (s : Str) : Option Nat :=
  getFirstCommaIndexGo s none 0

/-- The character class before the helper name in the extraction regex of
findHelperFunctionsInRange: whitespace or one of the listed punctuation
characters (the braces are written by code point). -/
def isHelperLead (c : Char) : Bool :=
  isJsWs c || [':', ';', '/', '*', '(', ')', Char.ofNat 123, Char.ofNat 125].contains c

/-- One match of the helper-reference regex: its start index, the helper
name group, the length of the group made of the opening parenthesis plus
following whitespace, and the lazily captured path group. -/
structure HelperMatch where
  index : Nat
  helper : Str
  innerLen : Nat
  path : Str
deriving DecidableEq, Repr

def stripTrailWs (s : Str) : Str :=
  (s.reverse.dropWhile isJsWs).reverse

/-- Continuation of a helper-regex match after the helper name was read:
requires an opening parenthesis, greedily consumes whitespace, then lazily
captures everything up to the first closing parenthesis (the regex path
group cannot contain one), giving trailing whitespace back to the final
whitespace-star.  Returns the captured groups and the number of characters
consumed after the lead character. -/
def matchHelperTail (restAfterHelper : Str) (p : Nat) (helperName : Str) :
    Option (HelperMatch × Nat) :=
  match restAfterHelper with
  | '(' :: r3 =>
    let ws := r3.takeWhile isJsWs
    let r4 := r3.drop ws.length
    let chunk := r4.takeWhile (fun c => !(c == ')'))
    let r5 := r4.drop chunk.length
    match r5 with
    | ')' :: _ =>
      some ({ index := p
              helper := helperName
              innerLen := 1 + ws.length
              path := stripTrailWs chunk },
            helperName.length + 1 + ws.length + chunk.length + 1)
    | _ => none
  | _ => none

/-- A single attempt of the helper-reference regex at position `p` of the
text: a lead character, then `config` or `theme` (in that alternation
order), then the parenthesized tail.  Returns the match and its total
length. -/
def matchHelperAt (text : Str) (p : Nat) : Option (HelperMatch × Nat) :=
  match text.drop p with
  | c :: r1 =>
    if isHelperLead c then
      let res :=
        if "config".toList.isPrefixOf r1 then
          matchHelperTail (r1.drop 6) p "config".toList
        else none
      match res with
      | some m => some (m.1, 1 + m.2)
      | none =>
        if "theme".toList.isPrefixOf r1 then
          match matchHelperTail (r1.drop 5) p "theme".toList with
          | some m => some (m.1, 1 + m.2)
          | none => none
        else none
    else none
  | [] => none

/-- The global scan of `findAll` for the helper-reference regex: try every
position left to right and continue after each match.  The scan position
advances by at least one on every step, so a fuel of one more than the text
length always suffices; fuel keeps the recursion structural. -/
def findHelpersGo (text : Str) : Nat → Nat → List HelperMatch
  | 0, _ => []
  | fuel + 1, p =>
    if text.length ≤ p then []
    else
      match matchHelperAt text p with
      | some (m, len) => m :: findHelpersGo text fuel (p + 1 + (len - 1))
      | none => findHelpersGo text fuel (p + 1)

def findHelpers (text : Str) : List HelperMatch :=
  findHelpersGo text (text.length + 1) 0

/-- Strip a trailing run of quote characters (`replace` with a
quotes-at-end pattern). -/
def stripTrailingQuotes (s : Str) : Str :=
  (s.reverse.dropWhile isQuote).reverse

/-- Strip a leading run of quote characters, returning the stripped run
(captured in the source as `quotesBefore`) and the remainder. -/
def stripLeadingQuotes (s : Str) : Str × Str :=
  (s.takeWhile isQuote, s.dropWhile isQuote)

/-- Strip a trailing run of quote characters followed by trailing
whitespace (`replace` with a quotes-then-whitespace-at-end pattern). -/
def stripQuotesWsEnd (s : Str) : Str :=
  ((s.reverse.dropWhile isJsWs).dropWhile isQuote).reverse

/-- The negative lookahead in the alpha-modifier regex succeeds iff the
remainder does not start with a bracket-free run followed by a closing
square bracket: i.e. iff the first square bracket of the remainder, if
any, is an opening one. -/
def negLookOk (rest : Str) : Bool :=
  match rest.dropWhile (fun c => !(c == '[') && !(c == ']')) with
  | c :: _ => !(c == ']')
  | [] => true

/-- The tail of the alpha-modifier regex after the captured head: optional
whitespace, a slash, optional whitespace, then a nonempty final segment
with no slash or whitespace. -/
def modTail (rest : Str) : Bool :=
  match rest.dropWhile isJsWs with
  | c :: r2 =>
    c == '/' &&
      (let r3 := r2.dropWhile isJsWs
       !r3.isEmpty && r3.all (fun d => !(isJsWs d) && !(d == '/')))
  | [] => false

/-- Backtracking of the greedy nonspace head group of the alpha-modifier
regex: try the longest head first and shrink until the lookahead and the
tail both match. -/
def modGo (s : Str) : Nat → Option Str
  | 0 => none
  | k + 1 =>
    let rest := s.drop (k + 1)
    if negLookOk rest && modTail rest then some (s.take (k + 1))
    else modGo s k

/-- find.ts line 484: `path.match` against the alpha-modifier regex; returns
the first capture group when the whole path matches. -/
def modifierCapture (s : Str) : Option Str :=
  modGo s (s.takeWhile (fun c => !(isJsWs c))).length

/-- Modelled from the spec: `resolveRange` (util/resolveRange.ts, not under
src/).  Section 4.1: composing a locally computed range into an enclosing
range adds the enclosing start line to both lines; a character offset on
line 0 of the local range has the enclosing start character column added,
character offsets on later lines are absolute.  With no enclosing range the
local range is returned unchanged. -/
def resolveRange (r : Range) (enc : Option Range) : Range :=
  match enc with
  | none => r
  | some e =>
    { start :=
        { line := e.start.line + r.start.line
          character := (if r.start.line = 0 then e.start.character else 0) + r.start.character }
      stop :=
        { line := e.start.line + r.stop.line
          character := (if r.stop.line = 0 then e.start.character else 0) + r.stop.character } }

/-- One `theme(...)`/`config(...)` occurrence (the DocumentHelperFunction
fields the scanner fills; the type itself lives in util/state.ts, outside
src/).  `rangesFull`/`rangesPath` are the source's `ranges.full` and
`ranges.path`. -/
structure DocumentHelperFunction where
  helper : Helper
  path : Str
  rangesFull : Range
  rangesPath : Range
deriving DecidableEq, Repr

/-- The body of the `matches.map` in findHelperFunctionsInRange (find.ts
lines 473-516). -/
def processHelperMatch (text : Str) (enc : Option Range) (m : HelperMatch) :
    DocumentHelperFunction :=
  let path0 := m.path
  let path1 :=
    match getFirstCommaIndex path0 with
    | some ci => stripTrailWs (path0.take ci)
    | none => path0
  let path2 := stripTrailingQuotes path1
  let quotesBefore := (stripLeadingQuotes path2).1
  let path3 := (stripLeadingQuotes path2).2
  let path4 :=
    match modifierCapture path3 with
    | some a => a
    | none => path3
  let path5 := stripQuotesWsEnd path4
  let startIndex := m.index + 1 + m.helper.length + m.innerLen
  { helper := if m.helper = "theme".toList then Helper.theme else Helper.config
    path := path5
    rangesFull :=
      resolveRange
        { start := indexToPosition text (startIndex : Int)
          stop := indexToPosition text ((startIndex + m.path.length : Nat) : Int) } enc
    rangesPath :=
      resolveRange
        { start := indexToPosition text ((startIndex + quotesBefore.length : Nat) : Int)
          stop := indexToPosition text
            ((startIndex + quotesBefore.length + path5.length : Nat) : Int) } enc }

/-- Modelled from the spec: `getTextWithoutComments` (util/doc.ts, not under
src/) — comment stripping is an out-of-scope external collaborator
(spec section 1), so the style-sheet text is taken as given. -/
def getTextWithoutComments (text : Str) : Str := text

/-- find.ts lines 463-517, over the style-sheet text of the document (or of
the given sub-range). -/
def findHelperFunctionsInRange (text : Str) (enc : Option Range) :
    List DocumentHelperFunction :=
  (findHelpers (getTextWithoutComments text)).map
    (processHelperMatch (getTextWithoutComments text) enc)

/-! ## Claim-language helper definitions -/

/-- The range-composition rule the two tokenizers actually apply when
lifting a token's local range into the enclosing span's coordinates: both
lines are shifted by the enclosing start line, and both characters are
shifted by the enclosing start character exactly when the local range ENDS
on line 0. -/
def composeEndBased (enc : Range) (rel : Range) : Range :=
  { start :=
      { line := enc.start.line + rel.start.line
        character := (if rel.stop.line = 0 then enc.start.character else 0) + rel.start.character }
    stop :=
      { line := enc.start.line + rel.stop.line
        character := (if rel.stop.line = 0 then enc.start.character else 0) + rel.stop.character } }

/-- Maximal runs of characters on which `p` is false: the nonempty words of
a string under separator predicate `p`. -/
def wordsByP (p : Char → Bool) : Str → List Str
  | [] => []
  | c :: rest =>
    if p c then wordsByP p rest
    else
      match rest with
      | [] => [[c]]
      | d :: _ =>
        if p d then [c] :: wordsByP p rest
        else
          match wordsByP p rest with
          | [] => [[c]]
          | w :: t => (c :: w) :: t

/-- Every other element of a list, starting with the first when the flag is
true: the even-indexed (word) parts of the alternating split. -/
def evensOdds : Bool → List Str → List Str
  | _, [] => []
  | true, a :: rest => a :: evensOdds false rest
  | false, _ :: rest => evensOdds true rest

/-- The stack invariant of the variant-aware scanner: the push-count stack
sums to the variant-stack length, so every pop shrinks the variant stack by
an amount it actually holds. -/
def gsInv (st : VState) : Prop :=
  st.globalStackLengths.sum = st.globalStack.length

/-- A sample enclosing span range used by the concrete theorems. -/
def rSample : Range := { start := ⟨0, 0⟩, stop := ⟨0, 0⟩ }

/-! ## Concrete evaluations -/

set_option maxRecDepth 40000

/-- Claim C4: on `hover:(bg-red-500 focus:text-white)` with an empty
blocklist the variant-aware tokenizer yields exactly two tokens, in order:
`bg-red-500` with variants `[hover]`, then `text-white` with variants
`[hover, focus]`. -/
theorem c4_variant_group_example :
    (getClassNamesAndVariantsInClassList
        { classList := "hover:(bg-red-500 focus:text-white)".toList
          range := rSample
          important := false } []).map (fun t => (t.className, t.variants)) =
      [("bg-red-500".toList, some ["hover".toList]),
       ("text-white".toList, some ["hover".toList, "focus".toList])] := by
  decide

/-- Claim C6: the unterminated group `hover:(bg-red-500` still yields exactly
one token, `bg-red-500` with variants `[hover]`; the scan is a total
function, so termination without an error is by construction. -/
theorem c6_unterminated_group :
    (getClassNamesAndVariantsInClassList
        { classList := "hover:(bg-red-500".toList
          range := rSample
          important := false } []).map (fun t => (t.className, t.variants)) =
      [("bg-red-500".toList, some ["hover".toList])] := by
  decide

/-- Claim C5: on a style sheet containing `theme('colors.red.500' / 50, red)`
exactly one helper reference is produced, with path `colors.red.500` (the
fallback discarded at the first unquoted comma, quotes stripped, the alpha
modifier removed), while the full range still covers the whole captured
argument including the `/ 50` modifier, and the path range covers exactly
the quoted path. -/
theorem c5_theme_helper_example :
    findHelperFunctionsInRange " theme('colors.red.500' / 50, red)".toList none =
      [{ helper := Helper.theme
         path := "colors.red.500".toList
         rangesFull := { start := ⟨0, 7⟩, stop := ⟨0, 33⟩ }
         rangesPath := { start := ⟨0, 8⟩, stop := ⟨0, 22⟩ } }] ∧
    sliceRange " theme('colors.red.500' / 50, red)".toList
        { start := ⟨0, 7⟩, stop := ⟨0, 33⟩ } =
      "'colors.red.500' / 50, red".toList := by
  constructor
  · decide
  · decide

/-- Claim C1, counterexample: in `hover:\nbtn` the emitted token's local
range starts on line 0 (character 1) and ends on line 1, but its absolute
start character is 1, not the enclosing start column 5 plus 1 — the code
decides the shift by the END line of the local range, not by the position's
own line. -/
theorem c1_counterexample :
    (getClassNamesAndVariantsInClassList
        { classList := ['h', 'o', 'v', 'e', 'r', ':', '\n', 'b', 't', 'n']
          range := { start := ⟨0, 5⟩, stop := ⟨1, 3⟩ }
          important := false } []).map (fun t => (t.relativeRange, t.range)) =
      [({ start := ⟨0, 1⟩, stop := ⟨1, 3⟩ },
        { start := ⟨0, 1⟩, stop := ⟨1, 3⟩ })] ∧
    (1 : Nat) ≠ 5 + 1 := by
  constructor
  · decide
  · decide

/-- Claim C2, counterexample: in `hover:btn` the variant-aware tokenizer
emits a token whose class name is `btn` but whose local range spans the
whole of `hover:btn`, so the substring at the local range is not the class
name. -/
theorem c2_counterexample :
    (getClassNamesAndVariantsInClassList
        { classList := "hover:btn".toList
          range := rSample
          important := false } []).map
        (fun t => (t.className, sliceRange "hover:btn".toList t.relativeRange)) =
      [("btn".toList, "hover:btn".toList)] ∧
    "btn".toList ≠ "hover:btn".toList := by
  constructor
  · decide
  · decide

/-- Claim C3, counterexample: the empty class list contains no parenthesis
and no colon, yet the flat tokenizer emits one empty-named token while the
variant-aware tokenizer emits none, so the two do not produce the same set
of class names. -/
theorem c3_counterexample :
    (getClassNamesInClassList
        { classList := [], range := rSample, important := false } []).map
        (fun t => t.className) = [[]] ∧
    (getClassNamesAndVariantsInClassList
        { classList := [], range := rSample, important := false } []).map
        (fun t => t.className) = [] ∧
    ([[]] : List Str) ≠ [] := by
  refine ⟨by decide, by decide, by decide⟩

/-- Claim C8, counterexample: an offset greater than the text length does
not give the result at the clamped offset `length(text)`: on `ab`, offset 3
falls back to position (0,0) while offset 2 gives (0,2). -/
theorem c8_counterexample :
    indexToPosition "ab".toList 3 = ⟨0, 0⟩ ∧
    indexToPosition "ab".toList 2 = ⟨0, 2⟩ ∧
    (⟨0, 0⟩ : Position) ≠ ⟨0, 2⟩ := by
  refine ⟨by decide, by decide, by decide⟩

/-! ## Line/column lemmas -/

theorem splitLines_ne_nil : ∀ s : Str, splitLines s ≠ [] := by
  intro s
  induction s with
  | nil => simp [splitLines]
  | cons c rest ih =>
    simp only [splitLines]
    split
    · simp
    · split
      · simp
      · simp

theorem splitLines_cons_nl (rest : Str) :
    splitLines ('\n' :: rest) = [] :: splitLines rest := by
  simp [splitLines]

theorem splitLines_cons_not_nl {c : Char} {rest : Str} (hc : ¬ c = '\n')
    {l : Str} {ls : List Str} (hrest : splitLines rest = l :: ls) :
    splitLines (c :: rest) = (c :: l) :: ls := by
  simp [splitLines, hc, hrest]

theorem fromIndexGo_cons_le {l : Str} {ls : List Str} {i : Nat} (h : i ≤ l.length) :
    fromIndexGo (l :: ls) i = (0, i) := by
  simp [fromIndexGo, h]

theorem fromIndexGo_cons_gt {l : Str} {ls : List Str} {i : Nat} (h : ¬ i ≤ l.length) :
    fromIndexGo (l :: ls) i =
      ((fromIndexGo ls (i - (l.length + 1))).1 + 1,
       (fromIndexGo ls (i - (l.length + 1))).2) := by
  simp [fromIndexGo, h]

theorem lineStartOffset_cons_succ (l : Str) (ls : List Str) (n : Nat) :
    lineStartOffset (l :: ls) (n + 1) = l.length + 1 + lineStartOffset ls n := rfl

/-- Walking back from the line/column produced by `fromIndexGo` recovers the
flat index. -/
theorem lineStartOffset_fromIndexGo (t : Str) : ∀ i : Nat, i < t.length →
    lineStartOffset (splitLines t) (fromIndexGo (splitLines t) i).1 +
      (fromIndexGo (splitLines t) i).2 = i := by
  induction t with
  | nil => intro i hi; simp at hi
  | cons c rest ih =>
    intro i hi
    by_cases hc : c = '\n'
    · subst hc
      rw [splitLines_cons_nl]
      by_cases hi0 : i = 0
      · subst hi0
        rw [fromIndexGo_cons_le (by simp)]
        rfl
      · rw [fromIndexGo_cons_gt (by simp; omega)]
        simp only [List.length_nil, Nat.zero_add]
        rw [lineStartOffset_cons_succ]
        have hlt : i - 1 < rest.length := by
          simp only [List.length_cons] at hi
          omega
        have := ih (i - 1) hlt
        simp only [List.length_nil] at *
        omega
    · obtain ⟨l, ls, hrest⟩ : ∃ l ls, splitLines rest = l :: ls := by
        cases h : splitLines rest with
        | nil => exact absurd h (splitLines_ne_nil rest)
        | cons l ls => exact ⟨l, ls, rfl⟩
      rw [splitLines_cons_not_nl hc hrest]
      by_cases hle : i ≤ (c :: l).length
      · rw [fromIndexGo_cons_le hle]
        simp [lineStartOffset]
      · rw [fromIndexGo_cons_gt hle]
        rw [lineStartOffset_cons_succ]
        simp only [List.length_cons] at hle hi ⊢
        have hi1 : i - 1 < rest.length := by omega
        have hih := ih (i - 1) hi1
        rw [hrest] at hih
        have hgt : ¬ (i - 1 ≤ l.length) := by omega
        rw [fromIndexGo_cons_gt hgt] at hih
        rw [lineStartOffset_cons_succ] at hih
        have harg : i - 1 - (l.length + 1) = i - (l.length + 1 + 1) := by omega
        rw [harg] at hih
        omega

/-- For an in-range index, converting the index to a position and the
position back to a flat offset is the identity. -/
theorem positionToOffset_indexToPosition (s : Str) (i : Nat) (h : i ≤ s.length) :
    positionToOffset s (indexToPosition s (i : Int)) = i := by
  have h0 : ¬ ((i : Int) < 0) := by exact_mod_cast Int.not_lt.mpr (Int.natCast_nonneg i)
  have hlt : (i : Int).toNat < (s ++ ['\n']).length := by
    simp [Int.toNat_natCast]
    omega
  unfold indexToPosition lineColFromIndex
  rw [if_neg h0, if_pos hlt]
  simp only [Int.toNat_natCast, Nat.add_sub_cancel]
  unfold positionToOffset
  exact lineStartOffset_fromIndexGo (s ++ ['\n']) i (by simp; omega)

theorem indexToPosition_zero (s : Str) : indexToPosition s 0 = ⟨0, 0⟩ := by
  obtain ⟨l, ls, hsl⟩ : ∃ l ls, splitLines (s ++ ['\n']) = l :: ls := by
    cases h : splitLines (s ++ ['\n']) with
    | nil => exact absurd h (splitLines_ne_nil _)
    | cons l ls => exact ⟨l, ls, rfl⟩
  unfold indexToPosition lineColFromIndex
  rw [if_neg (by norm_num), if_pos (by simp)]
  simp [hsl, fromIndexGo_cons_le (Nat.zero_le l.length)]

theorem indexToPosition_neg (s : Str) (i : Int) (h : i < 0) :
    indexToPosition s i = ⟨0, 0⟩ := by
  unfold indexToPosition
  rw [if_pos h]

theorem indexToPosition_over (s : Str) (i : Int) (h : (s.length : Int) < i) :
    indexToPosition s i = ⟨0, 0⟩ := by
  have h0 : ¬ (i < 0) := by omega
  have hge : ¬ (i.toNat < (s ++ ['\n']).length) := by
    simp only [List.length_append, List.length_cons, List.length_nil]
    have : s.length < i.toNat := Int.lt_toNat.mpr h
    omega
  unfold indexToPosition lineColFromIndex
  rw [if_neg h0, if_neg hge]

/-- Claim C8 (amended): `indexToPosition` is total; an out-of-range offset on
either side (negative, or greater than the text length) yields the result at
offset 0, namely position (0,0) — offsets above the length are not clamped
to the length.  Offset `length(text)` itself is in range and denotes the
position just past the last character: converting it back to a flat offset
gives `length(text)` again. -/
theorem c8_index_clamp (s : Str) (i : Int) :
    ((i < 0 ∨ (s.length : Int) < i) → indexToPosition s i = indexToPosition s 0) ∧
    indexToPosition s 0 = ⟨0, 0⟩ ∧
    positionToOffset s (indexToPosition s (s.length : Int)) = s.length := by
  refine ⟨?_, indexToPosition_zero s, ?_⟩
  · intro h
    rcases h with h | h
    · rw [indexToPosition_neg s i h, indexToPosition_zero s]
    · rw [indexToPosition_over s i h, indexToPosition_zero s]
  · exact positionToOffset_indexToPosition s s.length (Nat.le_refl _)

/-- Witness for C8 at a concrete out-of-range offset. -/
theorem c8_index_clamp_witness :
    indexToPosition "ab".toList (-7) = indexToPosition "ab".toList 0 :=
  (c8_index_clamp "ab".toList (-7)).1 (Or.inl (by decide))

/-- Claim C10, counterexample: U+2001 is in the JS whitespace class the flat
tokenizer splits on, so a class list consisting of that single whitespace
character is whitespace-only, yet the variant-aware tokenizer returns a
nonempty result on it (its separator set omits U+2001 through U+2009). -/
theorem c10_counterexample :
    isJsWs (Char.ofNat 8193) = true ∧
    (getClassNamesAndVariantsInClassList
        { classList := [Char.ofNat 8193], range := rSample, important := false } []).map
        (fun t => t.className) = [[Char.ofNat 8193]] := by
  constructor
  · decide
  · decide

/-! ## Emission-shape lemmas for the two tokenizers -/

theorem splitWs_ne_nil : ∀ s : Str, splitWs s ≠ [] := by
  intro s
  induction s with
  | nil => simp [splitWs]
  | cons c rest ih =>
    simp only [splitWs]
    split
    · split <;> simp
    · split <;> simp

theorem splitWs_flatten : ∀ s : Str, (splitWs s).flatten = s := by
  intro s
  induction s with
  | nil => simp [splitWs]
  | cons c rest ih =>
    simp only [splitWs]
    split
    · split
      · next sep tail heq =>
        rw [heq] at ih
        simp only [List.flatten_cons, List.nil_append] at ih ⊢
        rw [List.cons_append, ih]
      · simp only [List.flatten_cons, List.nil_append, List.singleton_append, ih]
    · split
      · next heq => exact absurd heq (splitWs_ne_nil rest)
      · next w parts heq =>
        rw [heq] at ih
        simp only [List.flatten_cons] at ih ⊢
        rw [List.cons_append, ih]

/-- Every token the flat loop emits is a `flatToken` for a non-blocklisted
part placed at its true flat offset in the class list. -/
theorem flatGo_mem (cl : Str) (r : Range) (imp : Bool) (bl : List Str) :
    ∀ (parts : List Str) (i index : Nat) (pre : Str),
      pre.length = index → cl = pre ++ parts.flatten →
      ∀ t ∈ flatGo cl r imp bl parts i index,
        ∃ (p : Str) (idx2 : Nat),
          t = flatToken cl r imp p idx2 ∧
          bl.contains p = false ∧
          idx2 + p.length ≤ cl.length ∧
          (cl.drop idx2).take p.length = p := by
  intro parts
  induction parts with
  | nil =>
    intro i index pre h1 h2 t ht
    simp [flatGo] at ht
  | cons p ps ih =>
    intro i index pre h1 h2 t ht
    simp only [flatGo] at ht
    rw [List.mem_append] at ht
    rcases ht with ht | ht
    · split at ht
      · next hcond =>
        simp only [Bool.and_eq_true, Bool.not_eq_true'] at hcond
        simp only [List.mem_singleton] at ht
        subst ht
        have hjoin : cl = pre ++ (p ++ ps.flatten) := by
          rw [h2]; simp [List.flatten_cons]
        refine ⟨p, index, rfl, hcond.2, ?_, ?_⟩
        · subst h1
          rw [hjoin]
          simp only [List.length_append]
          omega
        · subst h1
          rw [hjoin, List.drop_left, List.take_left]
      · simp at ht
    · refine ih (i + 1) (index + p.length) (pre ++ p) (by simp [h1]) ?_ t ht
      rw [h2]
      simp [List.flatten_cons]

theorem flatToken_range_compose (cl : Str) (r : Range) (imp : Bool) (p : Str) (idx2 : Nat) :
    (flatToken cl r imp p idx2).range =
      composeEndBased r (flatToken cl r imp p idx2).relativeRange := rfl

theorem flatToken_roundtrip (cl : Str) (r : Range) (imp : Bool) (p : Str) (idx2 : Nat)
    (hle : idx2 + p.length ≤ cl.length) (hsub : (cl.drop idx2).take p.length = p) :
    sliceRange cl (flatToken cl r imp p idx2).relativeRange = p := by
  have h1 : positionToOffset cl (indexToPosition cl (idx2 : Int)) = idx2 :=
    positionToOffset_indexToPosition cl idx2 (by omega)
  have h2 : positionToOffset cl (indexToPosition cl ((idx2 + p.length : Nat) : Int)) =
      idx2 + p.length :=
    positionToOffset_indexToPosition cl _ hle
  simp only [flatToken, sliceRange]
  rw [h1, h2]
  rw [Nat.add_sub_cancel_left]
  exact hsub

theorem pushClassInfo_mem {cl : Str} {r : Range} {imp : Bool} {bl : List Str}
    {st : VState} {idx : Nat} {t : DocumentClassName}
    (h : t ∈ pushClassInfo cl r imp bl st idx) :
    t ∈ st.classInfo ∨
      (t = mkVariantToken cl r imp st idx ∧ bl.contains t.className = false) := by
  have h' : t ∈ (if bl.contains (mkVariantToken cl r imp st idx).className = true
      then st.classInfo else st.classInfo ++ [mkVariantToken cl r imp st idx]) := h
  by_cases hbl : bl.contains (mkVariantToken cl r imp st idx).className = true
  · rw [if_pos hbl] at h'
    exact Or.inl h'
  · rw [if_neg hbl] at h'
    rw [List.mem_append] at h'
    rcases h' with h' | h'
    · exact Or.inl h'
    · simp only [List.mem_singleton] at h'
      subst h'
      exact Or.inr ⟨rfl, by simpa using hbl⟩

theorem vStep_classInfo_sub {cl : Str} {r : Range} {imp : Bool} {bl : List Str}
    {st : VState} {idx : Nat} {c : Char} {t : DocumentClassName}
    (h : t ∈ (vStep cl r imp bl st idx c).classInfo) :
    t ∈ st.classInfo ∨
      ∃ st2 idx2, t = mkVariantToken cl r imp st2 idx2 ∧
        bl.contains t.className = false := by
  unfold vStep at h
  split at h
  · rcases pushClassInfo_mem h with h | ⟨he, hc⟩
    · exact Or.inl h
    · exact Or.inr ⟨st, idx, he, hc⟩
  · split at h
    · exact Or.inl h
    · split at h
      · exact Or.inl h
      · split at h
        · have h' : t ∈ (if (!st.searchingForStart) = true
              then pushClassInfo cl r imp bl st idx else st.classInfo) := h
          by_cases hs : (!st.searchingForStart) = true
          · rw [if_pos hs] at h'
            rcases pushClassInfo_mem h' with h'' | ⟨he, hc⟩
            · exact Or.inl h''
            · exact Or.inr ⟨st, idx, he, hc⟩
          · rw [if_neg hs] at h'
            exact Or.inl h'
        · split at h
          · exact Or.inl h
          · exact Or.inl h

theorem vScan_classInfo_sub (cl : Str) (r : Range) (imp : Bool) (bl : List Str) :
    ∀ (rest : Str) (idx : Nat) (st : VState) (t : DocumentClassName),
      t ∈ (vScan cl r imp bl idx rest st).classInfo →
      t ∈ st.classInfo ∨
        ∃ st2 idx2, t = mkVariantToken cl r imp st2 idx2 ∧
          bl.contains t.className = false := by
  intro rest
  induction rest with
  | nil => intro idx st t ht; exact Or.inl ht
  | cons c cs ih =>
    intro idx st t ht
    simp only [vScan] at ht
    rcases ih (idx + 1) (vStep cl r imp bl st idx c) t ht with h | h
    · exact vStep_classInfo_sub h
    · exact Or.inr h

/-- Every token the variant-aware tokenizer outputs is some
`mkVariantToken`, and its class name passed the blocklist filter. -/
theorem variantTokens_mem {dcl : DocumentClassList} {bl : List Str} {t : DocumentClassName}
    (h : t ∈ getClassNamesAndVariantsInClassList dcl bl) :
    ∃ st2 idx2,
      t = mkVariantToken dcl.classList dcl.range dcl.important st2 idx2 ∧
      bl.contains t.className = false := by
  unfold getClassNamesAndVariantsInClassList vFinish at h
  split at h
  · rcases pushClassInfo_mem h with h | ⟨he, hc⟩
    · rcases vScan_classInfo_sub _ _ _ _ dcl.classList 0 initV t h with h0 | h0
      · simp [initV] at h0
      · exact h0
    · exact ⟨_, _, he, hc⟩
  · rcases vScan_classInfo_sub _ _ _ _ dcl.classList 0 initV t h with h0 | h0
    · simp [initV] at h0
    · exact h0

theorem mkVariantToken_range_compose (cl : Str) (r : Range) (imp : Bool)
    (st : VState) (idx : Nat) :
    (mkVariantToken cl r imp st idx).range =
      composeEndBased r (mkVariantToken cl r imp st idx).relativeRange := rfl

/-- Claim C1 (amended): for every token of either tokenizer, the absolute
range is obtained from the local range by adding the enclosing start line to
both lines and adding the enclosing start character to both characters
exactly when the local range ENDS on line 0; when the local range ends on a
later line neither character is shifted — in particular a token whose local
range starts on line 0 but ends on a later line does NOT have its start
character shifted. -/
theorem c1_compose_rule (dcl : DocumentClassList) (bl : List Str) (t : DocumentClassName)
    (h : t ∈ getClassNamesInClassList dcl bl ∨
         t ∈ getClassNamesAndVariantsInClassList dcl bl) :
    t.range = composeEndBased dcl.range t.relativeRange := by
  rcases h with h | h
  · unfold getClassNamesInClassList at h
    obtain ⟨p, idx2, he, -, -, -⟩ :=
      flatGo_mem dcl.classList dcl.range dcl.important bl (splitWs dcl.classList) 0 0 []
        rfl (by rw [splitWs_flatten]; rfl) t h
    subst he
    exact flatToken_range_compose _ _ _ _ _
  · obtain ⟨st2, idx2, he, -⟩ := variantTokens_mem h
    subst he
    exact mkVariantToken_range_compose _ _ _ _ _

/-- Witness for C1 at a concrete single-token class list. -/
theorem c1_compose_rule_witness :
    (flatToken "x".toList rSample false "x".toList 0).range =
      composeEndBased rSample (flatToken "x".toList rSample false "x".toList 0).relativeRange :=
  c1_compose_rule { classList := "x".toList, range := rSample, important := false } []
    (flatToken "x".toList rSample false "x".toList 0) (Or.inl (by decide))

/-- Claim C9: no emitted token of either tokenizer has a blocklisted class
name — both tokenizers filter each candidate token by exact membership of
its class name in the blocklist. -/
theorem c9_blocklist (dcl : DocumentClassList) (bl : List Str) (t : DocumentClassName)
    (h : t ∈ getClassNamesInClassList dcl bl ∨
         t ∈ getClassNamesAndVariantsInClassList dcl bl) :
    bl.contains t.className = false := by
  rcases h with h | h
  · unfold getClassNamesInClassList at h
    obtain ⟨p, idx2, he, hbl, -, -⟩ :=
      flatGo_mem dcl.classList dcl.range dcl.important bl (splitWs dcl.classList) 0 0 []
        rfl (by rw [splitWs_flatten]; rfl) t h
    subst he
    exact hbl
  · obtain ⟨-, -, -, hbl⟩ := variantTokens_mem h
    exact hbl

/-- Witness for C9: the blocklisted name is dropped, the other kept. -/
theorem c9_blocklist_witness :
    ["bad".toList].contains (flatToken "a bad".toList rSample false "a".toList 0).className
      = false :=
  c9_blocklist { classList := "a bad".toList, range := rSample, important := false }
    ["bad".toList] (flatToken "a bad".toList rSample false "a".toList 0) (Or.inl (by decide))

/-! ## C7: group-stack safety of the variant-aware scanner -/

theorem sum_dropLast_add_getLast (l : List Nat) :
    l.dropLast.sum + l.getLast?.getD 0 = l.sum := by
  induction l with
  | nil => simp
  | cons a l ih =>
    cases l with
    | nil => simp
    | cons b m =>
      simp only [List.dropLast_cons₂, List.sum_cons, List.getLast?_cons_cons]
      simp only [List.sum_cons] at ih
      omega

theorem getLast_getD_le_sum (l : List Nat) : l.getLast?.getD 0 ≤ l.sum := by
  induction l with
  | nil => simp
  | cons a l ih =>
    cases l with
    | nil => simp
    | cons b m =>
      rw [List.getLast?_cons_cons, List.sum_cons]
      exact le_trans ih (Nat.le_add_left _ _)

theorem vStep_gsInv {cl : Str} {r : Range} {imp : Bool} {bl : List Str}
    {st : VState} {idx : Nat} {c : Char} (h : gsInv st) :
    gsInv (vStep cl r imp bl st idx c) := by
  unfold gsInv at h
  unfold gsInv vStep
  split
  · exact h
  · split
    · exact h
    · split
      · show (st.globalStackLengths ++ [st.localStack.length]).sum =
          (st.globalStack ++ st.localStack).length
        simp [List.sum_append, h]
      · split
        · show st.globalStackLengths.dropLast.sum =
            (if st.globalStackLengths.getLast?.getD 0 ≠ 0
             then st.globalStack.take
               (st.globalStack.length - st.globalStackLengths.getLast?.getD 0)
             else st.globalStack).length
          have hle : st.globalStackLengths.getLast?.getD 0 ≤ st.globalStack.length := by
            rw [← h]; exact getLast_getD_le_sum _
          have hdl := sum_dropLast_add_getLast st.globalStackLengths
          by_cases h0 : st.globalStackLengths.getLast?.getD 0 ≠ 0
          · rw [if_pos h0, List.length_take]
            omega
          · rw [if_neg h0]
            simp only [ne_eq, not_not] at h0
            omega
        · split
          · exact h
          · exact h

theorem vScan_gsInv (cl : Str) (r : Range) (imp : Bool) (bl : List Str) :
    ∀ (rest : Str) (idx : Nat) (st : VState), gsInv st →
      gsInv (vScan cl r imp bl idx rest st) := by
  intro rest
  induction rest with
  | nil => intro idx st h; exact h
  | cons c cs ih =>
    intro idx st h
    exact ih (idx + 1) (vStep cl r imp bl st idx c) (vStep_gsInv h)

/-- Claim C7 (as stated): after scanning any prefix of any class list the
push-count stack sums to the variant-stack length (so the length assignment
at a pop never goes negative), the amount a closing parenthesis would pop
never exceeds the variant-stack length, and a closing parenthesis seen with
an empty push-count stack leaves the variant stack untouched (a no-op pop).
Totality of the scan is by construction: `vScan` is a total function. -/
theorem c7_no_underflow (cl : Str) (r : Range) (imp : Bool) (bl : List Str) (n : Nat)
    (_hn : n ≤ cl.length) :
    gsInv (vScan cl r imp bl 0 (cl.take n) initV) ∧
    (vScan cl r imp bl 0 (cl.take n) initV).globalStackLengths.getLast?.getD 0 ≤
      (vScan cl r imp bl 0 (cl.take n) initV).globalStack.length ∧
    ((vScan cl r imp bl 0 (cl.take n) initV).globalStackLengths = [] →
      (vStep cl r imp bl (vScan cl r imp bl 0 (cl.take n) initV) n ')').globalStack =
        (vScan cl r imp bl 0 (cl.take n) initV).globalStack) := by
  have hinv : gsInv (vScan cl r imp bl 0 (cl.take n) initV) :=
    vScan_gsInv cl r imp bl (cl.take n) 0 initV (by simp [gsInv, initV])
  refine ⟨hinv, ?_, ?_⟩
  · unfold gsInv at hinv
    rw [← hinv]
    exact getLast_getD_le_sum _
  · intro hempty
    have hsep : isSeparator ')' = false := by decide
    have hco : ((')' : Char) == ':') = false := by decide
    have hop : ((')' : Char) == '(') = false := by decide
    have hcl : ((')' : Char) == ')') = true := by decide
    unfold vStep
    rw [hsep, hco, hop, hcl]
    simp [hempty]

/-- Witness for C7 after scanning `a)` entirely (one real no-op pop). -/
theorem c7_no_underflow_witness :
    gsInv (vScan "a)".toList rSample false [] 0 ("a)".toList.take 2) initV) ∧
    (vScan "a)".toList rSample false [] 0
        ("a)".toList.take 2) initV).globalStackLengths.getLast?.getD 0 ≤
      (vScan "a)".toList rSample false [] 0 ("a)".toList.take 2) initV).globalStack.length ∧
    ((vScan "a)".toList rSample false [] 0 ("a)".toList.take 2) initV).globalStackLengths = [] →
      (vStep "a)".toList rSample false []
          (vScan "a)".toList rSample false [] 0 ("a)".toList.take 2) initV) 2 ')').globalStack =
        (vScan "a)".toList rSample false [] 0 ("a)".toList.take 2) initV).globalStack) :=
  c7_no_underflow "a)".toList rSample false [] 2 (by decide)

/-! ## Step-equation lemmas for the variant-aware scanner -/

theorem vStep_eq_sep {cl : Str} {r : Range} {imp : Bool} {bl : List Str}
    {st : VState} {idx : Nat} {c : Char}
    (h1 : (!st.searchingForStart && isSeparator c) = true) :
    vStep cl r imp bl st idx c =
      { st with classInfo := pushClassInfo cl r imp bl st idx
                localStack := []
                searchingForStart := true } := by
  unfold vStep
  rw [if_pos h1]

theorem vStep_eq_colon {cl : Str} {r : Range} {imp : Bool} {bl : List Str}
    {st : VState} {idx : Nat} {c : Char}
    (h1 : ¬ ((!st.searchingForStart && isSeparator c) = true))
    (h2 : (!st.searchingForStart && (c == ':')) = true) :
    vStep cl r imp bl st idx c =
      { st with localStack := st.localStack ++ [jsSubstring cl st.wordIndex idx]
                searchingForStart := true } := by
  unfold vStep
  rw [if_neg h1, if_pos h2]

theorem vStep_eq_open {cl : Str} {r : Range} {imp : Bool} {bl : List Str}
    {st : VState} {idx : Nat} {c : Char}
    (h1 : ¬ ((!st.searchingForStart && isSeparator c) = true))
    (h2 : ¬ ((!st.searchingForStart && (c == ':')) = true))
    (h3 : (c == '(') = true) :
    vStep cl r imp bl st idx c =
      { st with globalStack := st.globalStack ++ st.localStack
                globalStackLengths := st.globalStackLengths ++ [st.localStack.length]
                localStack := []
                searchingForStart := true } := by
  unfold vStep
  rw [if_neg h1, if_neg h2, if_pos h3]

theorem vStep_eq_close {cl : Str} {r : Range} {imp : Bool} {bl : List Str}
    {st : VState} {idx : Nat} {c : Char}
    (h1 : ¬ ((!st.searchingForStart && isSeparator c) = true))
    (h2 : ¬ ((!st.searchingForStart && (c == ':')) = true))
    (h3 : ¬ ((c == '(') = true))
    (h4 : (c == ')') = true) :
    vStep cl r imp bl st idx c =
      { st with classInfo :=
                  if !st.searchingForStart then pushClassInfo cl r imp bl st idx
                  else st.classInfo
                localStack := []
                globalStackLengths := st.globalStackLengths.dropLast
                globalStack :=
                  if st.globalStackLengths.getLast?.getD 0 ≠ 0
                  then st.globalStack.take
                    (st.globalStack.length - st.globalStackLengths.getLast?.getD 0)
                  else st.globalStack
                searchingForStart := true } := by
  unfold vStep
  rw [if_neg h1, if_neg h2, if_neg h3, if_pos h4]

theorem vStep_eq_word {cl : Str} {r : Range} {imp : Bool} {bl : List Str}
    {st : VState} {idx : Nat} {c : Char}
    (h1 : ¬ ((!st.searchingForStart && isSeparator c) = true))
    (h2 : ¬ ((!st.searchingForStart && (c == ':')) = true))
    (h3 : ¬ ((c == '(') = true))
    (h4 : ¬ ((c == ')') = true))
    (h5 : (st.searchingForStart && !(isSeparator c)) = true) :
    vStep cl r imp bl st idx c =
      { st with wordIndex := idx, searchingForStart := false } := by
  unfold vStep
  rw [if_neg h1, if_neg h2, if_neg h3, if_neg h4, if_pos h5]

theorem vStep_eq_skip {cl : Str} {r : Range} {imp : Bool} {bl : List Str}
    {st : VState} {idx : Nat} {c : Char}
    (h1 : ¬ ((!st.searchingForStart && isSeparator c) = true))
    (h2 : ¬ ((!st.searchingForStart && (c == ':')) = true))
    (h3 : ¬ ((c == '(') = true))
    (h4 : ¬ ((c == ')') = true))
    (h5 : ¬ ((st.searchingForStart && !(isSeparator c)) = true)) :
    vStep cl r imp bl st idx c = st := by
  unfold vStep
  rw [if_neg h1, if_neg h2, if_neg h3, if_neg h4, if_neg h5]

/-! ## C2: round-trip of the local range -/

theorem jsSubstring_of_le {s : Str} {a b : Nat} (hab : a ≤ b) (hb : b ≤ s.length) :
    jsSubstring s a b = (s.drop a).take (b - a) := by
  simp only [jsSubstring]
  rw [min_eq_left (le_trans hab hb), min_eq_left hb, min_eq_left hab, max_eq_right hab]

theorem length_jsSubstring_of_le {s : Str} {a b : Nat} (hab : a ≤ b) (hb : b ≤ s.length) :
    (jsSubstring s a b).length = b - a := by
  rw [jsSubstring_of_le hab hb]
  simp only [List.length_take, List.length_drop]
  omega

/-- A token emitted while no local variants are pending has a local range
that denotes exactly the class name's span. -/
theorem mkVariantToken_roundtrip {cl : Str} {r : Range} {imp : Bool}
    {st : VState} {idx : Nat}
    (hw : st.wordIndex ≤ idx) (hi : idx ≤ cl.length) (hls : st.localStack = []) :
    sliceRange cl (mkVariantToken cl r imp st idx).relativeRange =
      (mkVariantToken cl r imp st idx).className := by
  have hoff : localStackOffset st.localStack = 0 := by rw [hls]; rfl
  have hlen : (jsSubstring cl st.wordIndex idx).length = idx - st.wordIndex :=
    length_jsSubstring_of_le hw hi
  have harg : (idx : Int) - ((jsSubstring cl st.wordIndex idx).length : Int) -
      ((localStackOffset st.localStack : Nat) : Int) = ((st.wordIndex : Nat) : Int) := by
    rw [hoff, hlen, Nat.cast_sub hw]
    push_cast
    omega
  unfold mkVariantToken
  simp only [sliceRange]
  rw [harg]
  rw [positionToOffset_indexToPosition cl st.wordIndex (le_trans hw hi)]
  rw [positionToOffset_indexToPosition cl idx hi]
  rw [jsSubstring_of_le hw hi]

/-- Scan invariant for class lists with no colon: the local stack stays
empty, the open-word index never passes the scan position, and every emitted
token satisfies the local-range round-trip. -/
theorem vScan_roundtrip_inv (cl : Str) (r : Range) (imp : Bool) (bl : List Str)
    (hnc : (':' : Char) ∉ cl) :
    ∀ (rest : Str) (idx : Nat) (st : VState),
      cl.drop idx = rest → idx ≤ cl.length →
      (st.searchingForStart = false → st.wordIndex ≤ idx) →
      st.localStack = [] →
      (∀ t ∈ st.classInfo, sliceRange cl t.relativeRange = t.className) →
      (∀ t ∈ (vScan cl r imp bl idx rest st).classInfo,
        sliceRange cl t.relativeRange = t.className) ∧
      (vScan cl r imp bl idx rest st).localStack = [] ∧
      ((vScan cl r imp bl idx rest st).searchingForStart = false →
        (vScan cl r imp bl idx rest st).wordIndex ≤ cl.length) := by
  intro rest
  induction rest with
  | nil =>
    intro idx st _hdrop hidx hw hls hrt
    exact ⟨hrt, hls, fun hs => le_trans (hw hs) hidx⟩
  | cons c rest' ih =>
    intro idx st hdrop hidx hw hls hrt
    have hidx' : idx < cl.length := by
      by_contra hcon
      have hnil : cl.drop idx = [] := List.drop_eq_nil_of_le (by omega)
      rw [hnil] at hdrop
      cases hdrop
    have hdrop' : cl.drop (idx + 1) = rest' := by
      have h' : (cl.drop idx).drop 1 = rest' := by rw [hdrop]; rfl
      rw [List.drop_drop] at h'
      exact h'
    have hcmem : c ∈ cl := by
      have : c ∈ cl.drop idx := by rw [hdrop]; exact List.mem_cons_self c rest'
      exact List.drop_subset idx cl this
    have hcolon : (c == ':') = false := by
      rw [beq_eq_false_iff_ne]
      intro he
      exact hnc (he ▸ hcmem)
    simp only [vScan]
    by_cases h1 : (!st.searchingForStart && isSeparator c) = true
    · rw [vStep_eq_sep h1]
      simp only [Bool.and_eq_true, Bool.not_eq_true'] at h1
      refine ih (idx + 1) _ hdrop' (by omega) (by intro hcon; cases hcon) rfl ?_
      intro t ht
      rcases pushClassInfo_mem ht with ht | ⟨he, -⟩
      · exact hrt t ht
      · subst he
        exact mkVariantToken_roundtrip (hw h1.1) (le_of_lt hidx') hls
    · by_cases h2 : (!st.searchingForStart && (c == ':')) = true
      · rw [hcolon, Bool.and_false] at h2
        cases h2
      · by_cases h3 : (c == '(') = true
        · rw [vStep_eq_open h1 h2 h3]
          refine ih (idx + 1) _ hdrop' (by omega) (by intro hcon; cases hcon) (by rw [hls]) ?_
          intro t ht
          exact hrt t ht
        · by_cases h4 : (c == ')') = true
          · rw [vStep_eq_close h1 h2 h3 h4]
            refine ih (idx + 1) _ hdrop' (by omega) (by intro hcon; cases hcon) rfl ?_
            intro t ht
            simp only at ht
            by_cases hsf : (!st.searchingForStart) = true
            · rw [if_pos hsf] at ht
              rcases pushClassInfo_mem ht with ht | ⟨he, -⟩
              · exact hrt t ht
              · subst he
                rw [Bool.not_eq_true'] at hsf
                exact mkVariantToken_roundtrip (hw hsf) (le_of_lt hidx') hls
            · rw [if_neg hsf] at ht
              exact hrt t ht
          · by_cases h5 : (st.searchingForStart && !(isSeparator c)) = true
            · rw [vStep_eq_word h1 h2 h3 h4 h5]
              exact ih (idx + 1) _ hdrop' (by omega) (fun _ => Nat.le_succ idx) hls hrt
            · rw [vStep_eq_skip h1 h2 h3 h4 h5]
              exact ih (idx + 1) _ hdrop' (by omega)
                (fun hs => le_trans (hw hs) (Nat.le_succ idx)) hls hrt

/-- Claim C2 (amended): the substring of the class list at a token's local
range equals the token's class name for every token of the flat tokenizer,
and for every token of the variant-aware tokenizer when the class list
contains no colon (with a colon, a token emitted with pending local
variants has its local range widened to cover the variant chain, see the
counterexample). -/
theorem c2_roundtrip (dcl : DocumentClassList) (bl : List Str) (t : DocumentClassName) :
    (t ∈ getClassNamesInClassList dcl bl →
      sliceRange dcl.classList t.relativeRange = t.className) ∧
    ((':' : Char) ∉ dcl.classList →
      t ∈ getClassNamesAndVariantsInClassList dcl bl →
      sliceRange dcl.classList t.relativeRange = t.className) := by
  constructor
  · intro h
    unfold getClassNamesInClassList at h
    obtain ⟨p, idx2, he, -, hle, hsub⟩ :=
      flatGo_mem dcl.classList dcl.range dcl.important bl (splitWs dcl.classList) 0 0 []
        rfl (by rw [splitWs_flatten]; rfl) t h
    subst he
    simp only [flatToken]
    exact flatToken_roundtrip dcl.classList dcl.range dcl.important p idx2 hle hsub
  · intro hnc h
    have hinv :=
      vScan_roundtrip_inv dcl.classList dcl.range dcl.important bl hnc
        dcl.classList 0 initV (List.drop_zero _) (Nat.zero_le _)
        (by intro hcon; cases hcon) rfl (by intro t ht; cases ht)
    unfold getClassNamesAndVariantsInClassList vFinish at h
    split at h
    · next hsf =>
      rcases pushClassInfo_mem h with h | ⟨he, -⟩
      · exact hinv.1 t h
      · subst he
        rw [Bool.not_eq_true'] at hsf
        exact mkVariantToken_roundtrip (hinv.2.2 hsf) (Nat.le_refl _) hinv.2.1
    · exact hinv.1 t h

/-- Witness for C2 on concrete tokens of both tokenizers. -/
theorem c2_roundtrip_witness :
    sliceRange "ab".toList
        (flatToken "ab".toList rSample false "ab".toList 0).relativeRange =
      (flatToken "ab".toList rSample false "ab".toList 0).className ∧
    sliceRange "ab".toList
        ({ className := "ab".toList
           classList := { classList := "ab".toList, range := rSample, important := false }
           variants := some []
           relativeRange := { start := ⟨0, 0⟩, stop := ⟨0, 2⟩ }
           range := { start := ⟨0, 0⟩, stop := ⟨0, 2⟩ } } :
          DocumentClassName).relativeRange =
      "ab".toList :=
  ⟨(c2_roundtrip { classList := "ab".toList, range := rSample, important := false } []
      (flatToken "ab".toList rSample false "ab".toList 0)).1 (by decide),
   (c2_roundtrip { classList := "ab".toList, range := rSample, important := false } []
      { className := "ab".toList
        classList := { classList := "ab".toList, range := rSample, important := false }
        variants := some []
        relativeRange := { start := ⟨0, 0⟩, stop := ⟨0, 2⟩ }
        range := { start := ⟨0, 0⟩, stop := ⟨0, 2⟩ } }).2 (by decide) (by decide)⟩

/-! ## C3: words characterizations of the two tokenizers -/

theorem wordsByP_cons_sep {p : Char → Bool} {c : Char} (r : Str) (hpc : p c = true) :
    wordsByP p (c :: r) = wordsByP p r := by
  simp [wordsByP, hpc]

theorem wordsByP_singleton (p : Char → Bool) (c : Char) :
    wordsByP p [c] = if p c then [] else [[c]] := rfl

theorem wordsByP_cons_cons (p : Char → Bool) (c d : Char) (r2 : Str) :
    wordsByP p (c :: d :: r2) =
      if p c then wordsByP p (d :: r2)
      else if p d then [c] :: wordsByP p (d :: r2)
      else
        match wordsByP p (d :: r2) with
        | [] => [[c]]
        | w :: t => (c :: w) :: t := rfl

theorem wordsByP_cons_nonws (p : Char → Bool) :
    ∀ (r : Str) (c : Char), p c = false →
      wordsByP p (c :: r) =
        (c :: r.takeWhile (fun d => !(p d))) ::
          wordsByP p (r.dropWhile (fun d => !(p d))) := by
  intro r
  induction r with
  | nil => intro c hc; simp [wordsByP, hc]
  | cons d r2 ih =>
    intro c hc
    rw [wordsByP_cons_cons p c d r2, hc]
    simp only [Bool.false_eq_true, if_false]
    cases hd : p d with
    | true =>
      simp [hd, List.takeWhile_cons, List.dropWhile_cons]
    | false =>
      simp only [hd, Bool.false_eq_true, if_false]
      rw [ih d hd]
      simp [hd, List.takeWhile_cons, List.dropWhile_cons]

theorem wordsByP_nonws_head {p : Char → Bool} {d : Char} (r2 : Str) (hd : p d = false) :
    ∃ w2 t2, wordsByP p (d :: r2) = (d :: w2) :: t2 := by
  rw [wordsByP_cons_nonws p r2 d hd]
  exact ⟨_, _, rfl⟩

theorem splitWs_cons_eq (c : Char) (rest : Str) :
    splitWs (c :: rest) =
      if isJsWs c then
        match splitWs rest with
        | [] :: sep :: tail => [] :: (c :: sep) :: tail
        | parts => [] :: [c] :: parts
      else
        match splitWs rest with
        | [] => [[c]]
        | w :: parts => (c :: w) :: parts := rfl

theorem splitWs_ws_head {d : Char} (hd : isJsWs d = true) (r2 : Str) :
    ∃ tail2, splitWs (d :: r2) = [] :: tail2 := by
  simp only [splitWs, hd, if_true]
  split
  · exact ⟨_, rfl⟩
  · exact ⟨_, rfl⟩

theorem splitWs_nonws_head {d : Char} (hd : isJsWs d = false) (r2 : Str) :
    ∃ w' parts', splitWs (d :: r2) = (d :: w') :: parts' := by
  simp only [splitWs, hd, Bool.false_eq_true, if_false]
  split
  · exact ⟨[], [], rfl⟩
  · exact ⟨_, _, rfl⟩

/-- The class names of the flat loop are the even-indexed split parts that
survive the blocklist filter. -/
theorem flatGo_map_className (cl : Str) (r : Range) (imp : Bool) (bl : List Str) :
    ∀ (parts : List Str) (i index : Nat),
      (flatGo cl r imp bl parts i index).map (fun t => t.className) =
        (evensOdds (i % 2 == 0) parts).filter (fun w => !(bl.contains w)) := by
  intro parts
  induction parts with
  | nil => intro i index; cases h : (i % 2 == 0) <;> simp [flatGo, evensOdds, h]
  | cons p ps ih =>
    intro i index
    have hpar : ((i + 1) % 2 == 0) = !(i % 2 == 0) := by
      rcases Nat.mod_two_eq_zero_or_one i with h | h <;>
        simp [Nat.add_mod, h]
    simp only [flatGo, List.map_append]
    rw [ih (i + 1) (index + p.length), hpar]
    cases hi : (i % 2 == 0) with
    | true =>
      simp only [evensOdds, List.filter_cons]
      cases hbl : bl.contains p with
      | true => simp [hbl, show evensOdds false ps = evensOdds (!true) ps from rfl]
      | false => simp [hbl, flatToken]
    | false =>
      simp [evensOdds]

/-- The nonempty even-indexed split parts are exactly the maximal nonspace
words. -/
theorem evensOdds_splitWs (s : Str) :
    (evensOdds true (splitWs s)).filter (fun w => !(w.isEmpty)) = wordsByP isJsWs s := by
  induction s with
  | nil => simp [splitWs, evensOdds, wordsByP]
  | cons c rest ih =>
    cases hc : isJsWs c with
    | true =>
      rw [wordsByP_cons_sep rest hc]
      rw [splitWs_cons_eq c rest, if_pos hc]
      split
      · next sep tail heq =>
        rw [heq] at ih
        simp only [evensOdds, List.filter_cons, List.isEmpty_nil, Bool.not_true,
          Bool.false_eq_true, if_false] at ih ⊢
        exact ih
      · simp only [evensOdds, List.filter_cons, List.isEmpty_nil, Bool.not_true,
          Bool.false_eq_true, if_false]
        exact ih
    | false =>
      have hc' : ¬ (isJsWs c = true) := by rw [hc]; exact Bool.false_ne_true
      cases rest with
      | nil => simp [splitWs, wordsByP, hc, evensOdds]
      | cons d r2 =>
        cases hd : isJsWs d with
        | true =>
          obtain ⟨tail2, hsw⟩ := splitWs_ws_head hd r2
          rw [hsw] at ih
          simp only [evensOdds, List.filter_cons, List.isEmpty_nil, Bool.not_true,
            Bool.false_eq_true, if_false] at ih
          rw [splitWs_cons_eq c (d :: r2), if_neg hc', hsw]
          show List.filter (fun w => !(w.isEmpty))
              (evensOdds true ((c :: ([] : Str)) :: tail2)) =
            wordsByP isJsWs (c :: d :: r2)
          simp only [evensOdds, List.filter_cons, List.isEmpty_cons, Bool.not_false,
            if_true]
          rw [wordsByP_cons_cons isJsWs c d r2, hc, hd]
          simp only [Bool.false_eq_true, if_false, if_true]
          rw [← ih]
        | false =>
          obtain ⟨w', parts', hsw⟩ := splitWs_nonws_head hd r2
          rw [hsw] at ih
          simp only [evensOdds, List.filter_cons, List.isEmpty_cons, Bool.not_false,
            if_true] at ih
          rw [splitWs_cons_eq c (d :: r2), if_neg hc', hsw]
          show List.filter (fun w => !(w.isEmpty))
              (evensOdds true ((c :: d :: w') :: parts')) =
            wordsByP isJsWs (c :: d :: r2)
          simp only [evensOdds, List.filter_cons, List.isEmpty_cons, Bool.not_false,
            if_true]
          rw [wordsByP_cons_cons isJsWs c d r2, hc, hd]
          simp only [Bool.false_eq_true, if_false]
          rw [← ih]

theorem wordsByP_congr (p q : Char → Bool) :
    ∀ s : Str, (∀ c ∈ s, p c = q c) → wordsByP p s = wordsByP q s := by
  intro s
  induction s with
  | nil => intro _; rfl
  | cons c rest ih =>
    intro hag
    have hc : p c = q c := hag c (List.mem_cons_self c rest)
    have hrest : ∀ d ∈ rest, p d = q d := fun d hd => hag d (List.mem_cons_of_mem c hd)
    have ihr := ih hrest
    cases rest with
    | nil =>
      rw [wordsByP_singleton p c, wordsByP_singleton q c, hc]
    | cons d r2 =>
      have hd : p d = q d := hag d (List.mem_cons_of_mem c (List.mem_cons_self d r2))
      rw [wordsByP_cons_cons p c d r2, wordsByP_cons_cons q c d r2, hc, hd, ihr]

theorem jsSubstring_refl (cl : Str) (w : Nat) : jsSubstring cl w w = [] := by
  simp [jsSubstring]

theorem jsSubstring_snoc {cl : Str} {w idx : Nat} {c : Char} {rest' : Str}
    (hw : w ≤ idx) (hdrop : cl.drop idx = c :: rest') :
    jsSubstring cl w (idx + 1) = jsSubstring cl w idx ++ [c] := by
  have hidx : idx < cl.length := by
    by_contra hcon
    rw [List.drop_eq_nil_of_le (by omega)] at hdrop
    cases hdrop
  rw [jsSubstring_of_le hw (le_of_lt hidx), jsSubstring_of_le (by omega) (by omega)]
  have h1 : idx + 1 - w = (idx - w) + 1 := by omega
  rw [h1, List.take_succ]
  congr 1
  rw [List.getElem?_drop]
  have h2 : w + (idx - w) = idx := by omega
  rw [h2]
  have h3 : cl[idx]? = some c := by
    have h4 := List.getElem?_drop cl idx 0
    rw [hdrop] at h4
    simp only [List.getElem?_cons_zero, Nat.add_zero] at h4
    exact h4.symm
  rw [h3]
  rfl

theorem pushClassInfo_map (cl : Str) (r : Range) (imp : Bool) (bl : List Str)
    (st : VState) (idx : Nat) :
    (pushClassInfo cl r imp bl st idx).map (fun t => t.className) =
      st.classInfo.map (fun t => t.className) ++
        ([jsSubstring cl st.wordIndex idx].filter (fun w => !(bl.contains w))) := by
  have h' : pushClassInfo cl r imp bl st idx =
      (if bl.contains (jsSubstring cl st.wordIndex idx) = true then st.classInfo
       else st.classInfo ++ [mkVariantToken cl r imp st idx]) := rfl
  rw [h']
  by_cases hbl : bl.contains (jsSubstring cl st.wordIndex idx) = true
  · rw [if_pos hbl]
    simp only [List.filter_cons, List.filter_nil, hbl, Bool.not_true,
      Bool.false_eq_true, if_false, List.append_nil]
  · rw [if_neg hbl]
    rw [Bool.not_eq_true] at hbl
    simp only [List.filter_cons, List.filter_nil, hbl, Bool.not_false, if_true,
      List.map_append, List.map_cons, List.map_nil]
    rfl

/-- With no grouping and no colon in the class list, the variant-aware
tokenizer's class names are exactly the maximal separator-free words that
survive the blocklist filter.  The two conjuncts track the two scanner
modes (searching for a word start / inside an open word). -/
theorem vScan_words (cl : Str) (r : Range) (imp : Bool) (bl : List Str)
    (hsp : ∀ c ∈ cl, c ≠ '(' ∧ c ≠ ')' ∧ c ≠ ':') :
    ∀ (rest : Str) (idx : Nat) (st : VState),
      cl.drop idx = rest → idx ≤ cl.length → st.localStack = [] →
      (st.searchingForStart = true →
        (vFinish cl r imp bl (vScan cl r imp bl idx rest st)).map (fun t => t.className) =
          st.classInfo.map (fun t => t.className) ++
            (wordsByP isSeparator rest).filter (fun w => !(bl.contains w))) ∧
      (st.searchingForStart = false → st.wordIndex ≤ idx →
        (vFinish cl r imp bl (vScan cl r imp bl idx rest st)).map (fun t => t.className) =
          st.classInfo.map (fun t => t.className) ++
            ((jsSubstring cl st.wordIndex idx ++
                rest.takeWhile (fun d => !(isSeparator d))) ::
              wordsByP isSeparator (rest.dropWhile (fun d => !(isSeparator d)))).filter
              (fun w => !(bl.contains w))) := by
  intro rest
  induction rest with
  | nil =>
    intro idx st hdrop hidx hls
    have hidx0 : idx = cl.length := by
      by_contra hne
      have hlt : idx < cl.length := lt_of_le_of_ne hidx hne
      have hnn : cl.drop idx ≠ [] := by
        apply List.ne_nil_of_length_pos
        rw [List.length_drop]
        omega
      exact hnn hdrop
    subst hidx0
    constructor
    · intro hs
      simp [vScan, vFinish, hs, wordsByP]
    · intro hs _hw
      simp only [vScan, vFinish, hs, Bool.not_false, if_true]
      rw [pushClassInfo_map]
      simp [wordsByP]
  | cons c rest' ih =>
    intro idx st hdrop hidx hls
    have hidx' : idx < cl.length := by
      by_contra hcon
      rw [List.drop_eq_nil_of_le (by omega)] at hdrop
      cases hdrop
    have hdrop' : cl.drop (idx + 1) = rest' := by
      have h' : (cl.drop idx).drop 1 = rest' := by rw [hdrop]; rfl
      rw [List.drop_drop] at h'
      exact h'
    have hcmem : c ∈ cl := by
      have hmem : c ∈ cl.drop idx := by rw [hdrop]; exact List.mem_cons_self c rest'
      exact List.drop_subset idx cl hmem
    have hch := hsp c hcmem
    have h3 : (c == '(') = false := beq_eq_false_iff_ne.mpr hch.1
    have h4 : (c == ')') = false := beq_eq_false_iff_ne.mpr hch.2.1
    have hco : (c == ':') = false := beq_eq_false_iff_ne.mpr hch.2.2
    have h3' : ¬((c == '(') = true) := by rw [h3]; exact Bool.false_ne_true
    have h4' : ¬((c == ')') = true) := by rw [h4]; exact Bool.false_ne_true
    constructor
    · intro hs
      cases hsep : isSeparator c with
      | true =>
        have h1 : ¬((!st.searchingForStart && isSeparator c) = true) := by
          rw [hs]; simp
        have h2 : ¬((!st.searchingForStart && (c == ':')) = true) := by
          rw [hs]; simp
        have h5 : ¬((st.searchingForStart && !(isSeparator c)) = true) := by
          rw [hs, hsep]; simp
        simp only [vScan]
        rw [vStep_eq_skip h1 h2 h3' h4' h5]
        rw [wordsByP_cons_sep rest' hsep]
        exact (ih (idx + 1) st hdrop' (by omega) hls).1 hs
      | false =>
        have h1 : ¬((!st.searchingForStart && isSeparator c) = true) := by
          rw [hsep]; simp
        have h2 : ¬((!st.searchingForStart && (c == ':')) = true) := by
          rw [hs]; simp
        have h5 : (st.searchingForStart && !(isSeparator c)) = true := by
          rw [hs, hsep]; rfl
        simp only [vScan]
        rw [vStep_eq_word h1 h2 h3' h4' h5]
        have hrec := (ih (idx + 1)
            { st with wordIndex := idx, searchingForStart := false }
            hdrop' (by omega) hls).2 rfl (Nat.le_succ idx)
        dsimp only at hrec
        rw [hrec]
        have hjs : jsSubstring cl idx (idx + 1) = [c] := by
          rw [jsSubstring_snoc (le_refl idx) hdrop, jsSubstring_refl]
          rfl
        rw [hjs, wordsByP_cons_nonws isSeparator rest' c hsep]
        simp
    · intro hs hw
      cases hsep : isSeparator c with
      | true =>
        have h1 : (!st.searchingForStart && isSeparator c) = true := by
          rw [hs, hsep]; rfl
        simp only [vScan]
        rw [vStep_eq_sep h1]
        have hrec := (ih (idx + 1)
            { st with classInfo := pushClassInfo cl r imp bl st idx
                      localStack := []
                      searchingForStart := true }
            hdrop' (by omega) rfl).1 rfl
        dsimp only at hrec
        rw [hrec, pushClassInfo_map]
        simp only [List.takeWhile_cons, List.dropWhile_cons, hsep, Bool.not_true,
          Bool.false_eq_true, if_false]
        rw [wordsByP_cons_sep rest' hsep, List.append_nil, List.filter_cons]
        by_cases hbl : bl.contains (jsSubstring cl st.wordIndex idx) = true
        · simp only [hbl, Bool.not_true, Bool.false_eq_true, if_false,
            List.filter_cons, List.filter_nil, List.append_nil]
        · rw [Bool.not_eq_true] at hbl
          simp only [hbl, Bool.not_false, if_true, List.filter_cons, List.filter_nil]
          simp
      | false =>
        have h1 : ¬((!st.searchingForStart && isSeparator c) = true) := by
          rw [hsep]; simp
        have h2 : ¬((!st.searchingForStart && (c == ':')) = true) := by
          rw [hco]; simp
        have h5 : ¬((st.searchingForStart && !(isSeparator c)) = true) := by
          rw [hs]; simp
        simp only [vScan]
        rw [vStep_eq_skip h1 h2 h3' h4' h5]
        have hrec := (ih (idx + 1) st hdrop' (by omega) hls).2 hs
          (le_trans hw (Nat.le_succ idx))
        rw [hrec, jsSubstring_snoc hw hdrop]
        simp only [List.takeWhile_cons, List.dropWhile_cons, hsep, Bool.not_false,
          if_true]
        simp [List.append_assoc]

/-- Claim C3 (amended): for a class list with no parenthesis and no colon in
which every JS-whitespace character is also in SEPARATOR_CHARS (the
variant-aware tokenizer's fixed separator set, which omits U+2001 through
U+2009), the two tokenizers produce the same sequence (hence the same set)
of NONEMPTY class names; the flat tokenizer additionally emits empty-name
tokens at the whitespace boundaries, which the variant-aware tokenizer
never does. -/
theorem c3_same_words (dcl : DocumentClassList) (bl : List Str)
    (hsp : ∀ c ∈ dcl.classList, c ≠ '(' ∧ c ≠ ')' ∧ c ≠ ':')
    (hag : ∀ c ∈ dcl.classList, isJsWs c = isSeparator c) :
    ((getClassNamesInClassList dcl bl).map (fun t => t.className)).filter
        (fun w => !(w.isEmpty)) =
      (getClassNamesAndVariantsInClassList dcl bl).map (fun t => t.className) := by
  have hflat : (getClassNamesInClassList dcl bl).map (fun t => t.className) =
      (evensOdds true (splitWs dcl.classList)).filter (fun w => !(bl.contains w)) := by
    unfold getClassNamesInClassList
    have h0 := flatGo_map_className dcl.classList dcl.range dcl.important bl
      (splitWs dcl.classList) 0 0
    simpa using h0
  have hcomm : ∀ L : List Str,
      (L.filter (fun w => !(bl.contains w))).filter (fun w => !(w.isEmpty)) =
        (L.filter (fun w => !(w.isEmpty))).filter (fun w => !(bl.contains w)) := by
    intro L
    rw [List.filter_filter, List.filter_filter]
    apply List.filter_congr
    intro a _
    exact Bool.and_comm _ _
  have hvar := (vScan_words dcl.classList dcl.range dcl.important bl hsp
    dcl.classList 0 initV (List.drop_zero _) (Nat.zero_le _) rfl).1 rfl
  rw [hflat, hcomm, evensOdds_splitWs,
    wordsByP_congr isJsWs isSeparator dcl.classList hag]
  unfold getClassNamesAndVariantsInClassList
  rw [hvar]
  simp [initV]

/-- Witness for C3 on a concrete colon-free class list. -/
theorem c3_same_words_witness :
    ((getClassNamesInClassList
        { classList := "a  b ".toList, range := rSample, important := false } []).map
          (fun t => t.className)).filter (fun w => !(w.isEmpty)) =
      (getClassNamesAndVariantsInClassList
        { classList := "a  b ".toList, range := rSample, important := false } []).map
          (fun t => t.className) :=
  c3_same_words { classList := "a  b ".toList, range := rSample, important := false } []
    (by decide) (by decide)

/-! ## C10: empty and whitespace-only class lists -/

theorem splitWs_all_ws : ∀ s : Str, s ≠ [] → (∀ c ∈ s, isJsWs c = true) →
    splitWs s = [[], s, []] := by
  intro s
  induction s with
  | nil => intro h _; exact absurd rfl h
  | cons c rest ih =>
    intro _ hws
    have hc : isJsWs c = true := hws c (List.mem_cons_self c rest)
    rw [splitWs_cons_eq c rest, if_pos hc]
    cases rest with
    | nil => rfl
    | cons d r2 =>
      have hrest : splitWs (d :: r2) = [[], d :: r2, []] :=
        ih (by simp) (fun x hx => hws x (List.mem_cons_of_mem c hx))
      rw [hrest]

theorem vScan_all_sep (cl : Str) (r : Range) (imp : Bool) (bl : List Str) :
    ∀ (rest : Str) (idx : Nat) (st : VState),
      st.searchingForStart = true → (∀ c ∈ rest, isSeparator c = true) →
      vScan cl r imp bl idx rest st = st := by
  intro rest
  induction rest with
  | nil => intro idx st _ _; rfl
  | cons c cs ih =>
    intro idx st hs hsep
    have hc : isSeparator c = true := hsep c (List.mem_cons_self c cs)
    have hcp : (c == '(') = false := by
      apply beq_eq_false_iff_ne.mpr
      intro he
      rw [he] at hc
      exact absurd hc (by decide)
    have hcl : (c == ')') = false := by
      apply beq_eq_false_iff_ne.mpr
      intro he
      rw [he] at hc
      exact absurd hc (by decide)
    have h1 : ¬((!st.searchingForStart && isSeparator c) = true) := by rw [hs]; simp
    have h2 : ¬((!st.searchingForStart && (c == ':')) = true) := by rw [hs]; simp
    have h3 : ¬((c == '(') = true) := by rw [hcp]; exact Bool.false_ne_true
    have h4 : ¬((c == ')') = true) := by rw [hcl]; exact Bool.false_ne_true
    have h5 : ¬((st.searchingForStart && !(isSeparator c)) = true) := by rw [hc]; simp
    simp only [vScan]
    rw [vStep_eq_skip h1 h2 h3 h4 h5]
    exact ih (idx + 1) st hs (fun x hx => hsep x (List.mem_cons_of_mem c hx))

/-- Claim C10 (amended): with a blocklist not containing the empty string,
the flat tokenizer emits exactly one empty-name token with a zero-width
range at (0,0) on the empty class list, and exactly two empty-name tokens
(one before and one after the separator run) on a JS-whitespace-only class
list; the variant-aware tokenizer returns an empty result on a class list
whose characters all lie in its SEPARATOR_CHARS set — but not on every
JS-whitespace-only class list, since its separator set omits U+2001 through
U+2009, see the counterexample. -/
theorem c10_empty_and_ws (bl : List Str) (r : Range) (imp : Bool)
    (hbl : bl.contains ([] : Str) = false) :
    ((getClassNamesInClassList { classList := [], range := r, important := imp } bl).map
        (fun t => (t.className, t.relativeRange)) =
      [(([] : Str), { start := ⟨0, 0⟩, stop := ⟨0, 0⟩ })]) ∧
    (∀ cl : Str, cl ≠ [] → (∀ c ∈ cl, isJsWs c = true) →
      (getClassNamesInClassList { classList := cl, range := r, important := imp } bl).map
          (fun t => (t.className, t.relativeRange)) =
        [(([] : Str), { start := ⟨0, 0⟩, stop := ⟨0, 0⟩ }),
         (([] : Str), { start := indexToPosition cl (cl.length : Int)
                        stop := indexToPosition cl (cl.length : Int) })]) ∧
    (∀ cl : Str, (∀ c ∈ cl, isSeparator c = true) →
      getClassNamesAndVariantsInClassList
        { classList := cl, range := r, important := imp } bl = []) := by
  have hbl' : ([] : Str) ∉ bl := by simpa using hbl
  refine ⟨?_, ?_, ?_⟩
  · simp [getClassNamesInClassList, splitWs, flatGo, flatToken, hbl',
      indexToPosition_zero]
  · intro cl hne hws
    unfold getClassNamesInClassList
    rw [show ({ classList := cl, range := r, important := imp } :
        DocumentClassList).classList = cl from rfl]
    rw [splitWs_all_ws cl hne hws]
    simp [flatGo, flatToken, hbl', indexToPosition_zero]
  · intro cl hsep
    unfold getClassNamesAndVariantsInClassList
    rw [show ({ classList := cl, range := r, important := imp } :
        DocumentClassList).classList = cl from rfl]
    rw [vScan_all_sep cl r imp bl cl 0 initV rfl hsep]
    rfl

/-- Witness for C10 at the empty class list and a single-space class list. -/
theorem c10_empty_and_ws_witness :
    ((getClassNamesInClassList
        { classList := [], range := rSample, important := false } []).map
        (fun t => (t.className, t.relativeRange)) =
      [(([] : Str), { start := ⟨0, 0⟩, stop := ⟨0, 0⟩ })]) ∧
    ((getClassNamesInClassList
        { classList := [' '], range := rSample, important := false } []).map
        (fun t => (t.className, t.relativeRange)) =
      [(([] : Str), { start := ⟨0, 0⟩, stop := ⟨0, 0⟩ }),
       (([] : Str), { start := indexToPosition [' '] (([' '] : Str).length : Int)
                      stop := indexToPosition [' '] (([' '] : Str).length : Int) })]) ∧
    (getClassNamesAndVariantsInClassList
        { classList := [' '], range := rSample, important := false } [] = []) :=
  ⟨(c10_empty_and_ws [] rSample false (by decide)).1,
   (c10_empty_and_ws [] rSample false (by decide)).2.1 [' '] (by decide) (by decide),
   (c10_empty_and_ws [] rSample false (by decide)).2.2 [' '] (by decide)⟩

end TwFind
